import Mathlib

/-!
Verification of the incremental fetch-merge-aggregate pipeline of
`fetch_stats.py` (Dev.to stats GitHub action).

Dates are modelled as integers (day numbers): the source stores dates as
ISO `YYYY-MM-DD` strings whose lexicographic order coincides with
chronological order, and the only arithmetic performed on them is
adding/subtracting one day (`get_next_date`, the refresh-mode
`timedelta(days=1)` subtraction).

Python `dict` semantics (insertion-ordered, assignment replaces the value
of an existing key in place) are modelled by association lists with the
`dictInsert` / `aggUpdate` operations below; Python's stable `sorted`
with a date key is modelled by `List.insertionSort` — for the lists
arising here every sort is applied to a list with pairwise-distinct keys,
where any correct sort produces the same output.
-/

namespace DevToStats

/-- One day's metrics for an article: an element of a `breakdown` list
(`{date, views, comments, reactions}` in the JSON documents). -/
structure DailyMetric where
  date : Int
  views : Nat
  comments : Nat
  reactions : Nat
deriving DecidableEq, Repr

/-- The ordering used by every `sorted(..., key=lambda x: x["date"])` in
`fetch_stats.py`. -/
def dateLe (a b : DailyMetric) : Prop := a.date ≤ b.date

instance : DecidableRel dateLe := fun a b => inferInstanceAs (Decidable (a.date ≤ b.date))

instance : IsTotal DailyMetric dateLe := ⟨fun a b => Int.le_total a.date b.date⟩

instance : IsTrans DailyMetric dateLe := ⟨fun _ _ _ h₁ h₂ => le_trans h₁ h₂⟩

/-- Strict version of `dateLe`; a breakdown that is `Pairwise dateLt` is
sorted ascending with no duplicate date. -/
def dateLt (a b : DailyMetric) : Prop := a.date < b.date

instance : DecidableRel dateLt := fun a b => inferInstanceAs (Decidable (a.date < b.date))

instance : IsAntisymm DailyMetric dateLt :=
  ⟨fun _ _ h₁ h₂ => absurd (lt_trans h₁ h₂) (lt_irrefl _)⟩

/-- `sorted(l, key=lambda x: x["date"])` of `fetch_stats.py`. -/
def sortByDate (l : List DailyMetric) : List DailyMetric :=
  List.insertionSort dateLe l

/-- Python dict assignment `d[item["date"]] = item` on an
insertion-ordered dict represented as an association list: the first
entry carrying the same date is replaced in place, otherwise the item is
appended at the end. -/
def dictInsert : List DailyMetric → DailyMetric → List DailyMetric
  | [], x => [x]
  | y :: l, x => if y.date = x.date then x :: l else y :: dictInsert l x

/-- The `unique_breakdown` dict of `process_article` (lines 204-206):
`for item in all_breakdown: unique_breakdown[item["date"]] = item`. -/
def dictOfList (l : List DailyMetric) : List DailyMetric :=
  l.foldl dictInsert []

/-- The merge engine of `process_article` (lines 200-208): concatenate
the existing breakdown with the freshly fetched one, deduplicate by date
with last-write-wins, and sort ascending by date. -/
def mergeBreakdown (existing new : List DailyMetric) : List DailyMetric :=
  sortByDate (dictOfList (existing ++ new))

/-- The dates occurring in a breakdown list. -/
def keys (l : List DailyMetric) : List Int := l.map (·.date)

/-- No two entries of the list carry the same date. -/
def NodupKeys (l : List DailyMetric) : Prop := (keys l).Nodup

/-- First entry carrying date `d` (the lookup on an association list). -/
def findAt (d : Int) (l : List DailyMetric) : Option DailyMetric :=
  l.find? (fun e => e.date = d)

/-- Left-biased choice on options (`match o₁ with some v => some v | none => o₂`). -/
def orElseO (o₁ o₂ : Option DailyMetric) : Option DailyMetric :=
  match o₁ with
  | some v => some v
  | none => o₂

@[simp] theorem orElseO_some (v : DailyMetric) (o : Option DailyMetric) :
    orElseO (some v) o = some v := rfl

@[simp] theorem orElseO_none (o : Option DailyMetric) : orElseO none o = o := rfl

/-- Last entry carrying date `d` — the value a Python dict built by a
left-to-right `d[item["date"]] = item` loop ends up holding for key `d`. -/
def lastAt (d : Int) : List DailyMetric → Option DailyMetric
  | [] => none
  | x :: l => orElseO (lastAt d l) (if x.date = d then some x else none)

/-- Totals as recomputed at lines 211-213 of `process_article`. -/
def sumViews (l : List DailyMetric) : Nat := (l.map (·.views)).sum

def sumComments (l : List DailyMetric) : Nat := (l.map (·.comments)).sum

def sumReactions (l : List DailyMetric) : Nat := (l.map (·.reactions)).sum

/-! ### The raw analytics payload and `process_analytics_data` -/

/-- The per-date payload of the `/analytics/historical` response:
`data.get("page_views", {}).get("total", 0)` etc. — a missing sub-field
defaults to zero. -/
structure RawCounts where
  page_views : Option Nat
  comments : Option Nat
  reactions : Option Nat
deriving DecidableEq, Repr

/-- `process_analytics_data` (lines 117-127): turn the date-keyed
analytics mapping into a breakdown list sorted ascending by date. -/
def processAnalyticsData (analytics : List (Int × RawCounts)) : List DailyMetric :=
  sortByDate (analytics.map (fun p =>
    { date := p.1
      views := p.2.page_views.getD 0
      comments := p.2.comments.getD 0
      reactions := p.2.reactions.getD 0 }))

/-! ### The incremental fetch planner and `process_article` -/

/-- `get_next_date` (lines 129-133). -/
def getNextDate (d : Int) : Int := d + 1

/-- The fields of a published article used by `process_article`. -/
structure Article where
  id : Nat
  slug : String
  published_at : Int
  title : String
  org_username : Option String
deriving DecidableEq, Repr

/-- The per-article JSON document written by `process_article`
(lines 216-223). -/
structure ArticleData where
  title : String
  views : Nat
  comments : Nat
  reactions : Nat
  org_username : Option String
  breakdown : List DailyMetric
deriving DecidableEq, Repr

/-- State of the article's record file on disk before the run: missing or
empty (lines 188-191), present but unparseable (lines 184-187), or parsed
with the given breakdown (a parsed file whose `breakdown` key is missing
behaves as `parsed []` via `existing_data.get("breakdown", [])`). -/
inductive ExistingFile where
  | absent
  | malformed
  | parsed (breakdown : List DailyMetric)
deriving DecidableEq, Repr

/-- The planning part of `process_article` (lines 150-191): decide which
date range to fetch (`none` = no fetch) and what the prior breakdown to
merge into is, after the refresh-mode eviction of the last date. -/
def planFetch (refresh : Bool) (publishedAt today : Int) :
    ExistingFile → (Option (Int × Int)) × List DailyMetric
  | .absent => (some (publishedAt, today), [])
  | .malformed => (some (publishedAt, today), [])
  | .parsed b =>
    match (keys b).max? with
    | none => (some (publishedAt, today), b)
    | some last =>
      let next := if refresh then last - 1 else getNextDate last
      let b' := if refresh then b.filter (fun e => decide (e.date ≠ last)) else b
      if next ≤ today then (some (next, today), b') else (none, b')

/-- `process_article` (lines 135-227): plan the range, fetch (the
`source` argument stands for `fetch_article_analytics`, which returns the
empty mapping on failure), merge, recompute totals, and produce the
document written back to disk. -/
def processArticle (refresh : Bool) (today : Int) (art : Article)
    (source : Int → Int → List (Int × RawCounts)) (existing : ExistingFile) :
    ArticleData :=
  let plan := planFetch refresh art.published_at today existing
  let newBreakdown :=
    match plan.1 with
    | some (s, e) => processAnalyticsData (source s e)
    | none => []
  let final := mergeBreakdown plan.2 newBreakdown
  { title := art.title
    views := sumViews final
    comments := sumComments final
    reactions := sumReactions final
    org_username := art.org_username
    breakdown := final }

/-! ### The aggregator (`update_account_stats`) -/

/-- One `date_aggregates[date][k] += item[k]` step (lines 258-263). -/
def addMetrics (e x : DailyMetric) : DailyMetric :=
  { date := e.date
    views := e.views + x.views
    comments := e.comments + x.comments
    reactions := e.reactions + x.reactions }

/-- One iteration of the aggregation loop (lines 256-263): initialize the
date bucket to zeros if absent, then add the item's fields into it. -/
def aggUpdate : List DailyMetric → DailyMetric → List DailyMetric
  | [], x => [x]
  | e :: l, x => if e.date = x.date then addMetrics e x :: l else e :: aggUpdate l x

/-- Lines 254-265: aggregate a concatenated breakdown list by date and
sort ascending. -/
def aggregateByDate (l : List DailyMetric) : List DailyMetric :=
  sortByDate (l.foldl aggUpdate [])

/-- The `account.json` document (lines 268-275). -/
structure AccountData where
  articles : Nat
  views : Nat
  comments : Nat
  reactions : Nat
  username : Option String
  breakdown : List DailyMetric
deriving DecidableEq, Repr

/-- `update_account_stats` (lines 229-279). Each element of `files` is
one scanned record file: `none` for an empty or unparseable file (skipped
at lines 241 and 251-252), `some data` for a valid one. -/
def updateAccountStats (articleCount : Nat) (username : Option String)
    (files : List (Option ArticleData)) : AccountData :=
  let valid := files.filterMap id
  { articles := articleCount
    views := (valid.map (·.views)).sum
    comments := (valid.map (·.comments)).sum
    reactions := (valid.map (·.reactions)).sum
    username := username
    breakdown := aggregateByDate (valid.map (·.breakdown)).flatten }

/-! ### The ranker (`create_top_articles`) -/

/-- The stats projected out of one valid record file (lines 298-304). -/
structure ArticleStat where
  slug : String
  title : String
  views : Nat
  reactions : Nat
  org_username : Option String
deriving DecidableEq, Repr

/-- One entry of a ranking sequence (`value` is the ranking's target
metric: `reactions` for `by_reaction`, `views` for `by_views`). -/
structure RankEntry where
  slug : String
  title : String
  value : Nat
  org_username : Option String
deriving DecidableEq, Repr

/-- The sort key `lambda x: (-x[metric], x["slug"])` of lines 313/317:
`a` precedes `b` when `a` has the larger metric, or an equal metric and a
lexicographically smaller-or-equal slug. -/
def rankLe (a b : RankEntry) : Prop :=
  b.value < a.value ∨ (a.value = b.value ∧ a.slug ≤ b.slug)

instance : DecidableRel rankLe := fun _a _b =>
  inferInstanceAs (Decidable (_ ∨ _))

instance : IsTotal RankEntry rankLe := by
  constructor
  intro a b
  rcases lt_trichotomy a.value b.value with h | h | h
  · exact Or.inr (Or.inl h)
  · rcases le_total a.slug b.slug with hs | hs
    · exact Or.inl (Or.inr ⟨h, hs⟩)
    · exact Or.inr (Or.inr ⟨h.symm, hs⟩)
  · exact Or.inl (Or.inl h)

instance : IsTrans RankEntry rankLe := by
  constructor
  intro a b c h₁ h₂
  rcases h₁ with h₁ | ⟨h₁e, h₁s⟩
  · rcases h₂ with h₂ | ⟨h₂e, h₂s⟩
    · exact Or.inl (lt_trans h₂ h₁)
    · exact Or.inl (h₂e ▸ h₁)
  · rcases h₂ with h₂ | ⟨h₂e, h₂s⟩
    · exact Or.inl (h₁e ▸ h₂)
    · exact Or.inr ⟨h₁e.trans h₂e, le_trans h₁s h₂s⟩

def projByReaction (a : ArticleStat) : RankEntry :=
  { slug := a.slug, title := a.title, value := a.reactions, org_username := a.org_username }

def projByViews (a : ArticleStat) : RankEntry :=
  { slug := a.slug, title := a.title, value := a.views, org_username := a.org_username }

/-- `create_top_articles` (lines 309-319): the `by_reaction` and
`by_views` ranking sequences. -/
def createTopArticles (stats : List ArticleStat) : List RankEntry × List RankEntry :=
  (List.insertionSort rankLe (stats.map projByReaction),
   List.insertionSort rankLe (stats.map projByViews))

/-! ### Credentials and article-list enumeration (`_load_api_key`,
`fetch_published_articles`, `fetch_article_analytics`) -/

/-- Python `line.strip('"\x27')`: remove all leading and trailing quote
characters (on the character list of the string). -/
def stripQuotesList (cs : List Char) : List Char :=
  ((cs.dropWhile quoteChar).reverse.dropWhile quoteChar).reverse
where quoteChar (c : Char) : Bool := c == '"' || c == '\''

/-- Python `line.strip()`: remove leading and trailing whitespace. -/
def trimList (cs : List Char) : List Char :=
  ((cs.dropWhile Char.isWhitespace).reverse.dropWhile Char.isWhitespace).reverse

/-- One line of the `.env` scan (lines 38-43): a stripped line starting
with `API_KEY=` or `DEVTO_API_KEY=` yields the quote-stripped remainder
after the first `=` (`line.split("=", 1)[1]`). -/
def parseEnvLine (line : String) : Option String :=
  let l := trimList line.toList
  if List.isPrefixOf "API_KEY=".toList l then
    some (String.mk (stripQuotesList (l.drop 8)))
  else if List.isPrefixOf "DEVTO_API_KEY=".toList l then
    some (String.mk (stripQuotesList (l.drop 14)))
  else none

/-- The loop of `_load_api_key`: the last matching line wins. -/
def extractApiKey (lines : List String) : Option String :=
  lines.foldl
    (fun acc l =>
      match parseEnvLine l with
      | some k => some k
      | none => acc)
    none

/-- `_load_api_key` (lines 29-49). `none` input = no `.env` file.
`.error ()` models `sys.exit(1)`; note that an empty extracted key is
also fatal (`if not api_key`). -/
def loadApiKey : Option (List String) → Except Unit String
  | none => .error ()
  | some lines =>
    match extractApiKey lines with
    | none => .error ()
    | some k => if k = "" then .error () else .ok k

/-- One page response of `GET /articles/me/published`: a successful JSON
array, an API error object (`{"error": ...}`), or a transport error
(`requests.exceptions.RequestException`). -/
inductive PageResp where
  | ok (articles : List Article)
  | apiError
  | transportError
deriving Repr

/-- `fetch_published_articles` (lines 73-115): accumulate pages until an
empty page; an API error object or a transport exception is fatal
(`sys.exit(1)`, modelled `.error ()`). The input list is the sequence of
page responses the API would serve; past its end the API serves empty
pages, ending the loop. -/
def fetchPublishedArticles : List PageResp → Except Unit (List Article)
  | [] => .ok []
  | .transportError :: _ => .error ()
  | .apiError :: _ => .error ()
  | .ok [] :: _ => .ok []
  | .ok (a :: as) :: rest =>
    match fetchPublishedArticles rest with
    | .ok more => .ok ((a :: as) ++ more)
    | .error e => .error e

/-- Response of one `/analytics/historical` call. -/
inductive AnalyticsResp where
  | ok (data : List (Int × RawCounts))
  | failed
deriving Repr

/-- `fetch_article_analytics` (lines 51-71): a transport error or
malformed JSON yields the empty mapping instead of raising. -/
def fetchArticleAnalytics : AnalyticsResp → List (Int × RawCounts)
  | .ok d => d
  | .failed => []

/-! ### Spec-side definitions used to state the claims -/

/-- Modelled from the spec's words (§4.2 Merge Engine): "build a mapping
from date to DailyMetric seeded with every entry of the prior breakdown,
then overwrite (not add) with every entry from the freshly fetched data
for the same date ... Emit the mapping's values sorted ascending by
date." -/
def mergeSpec (prior fetched : List DailyMetric) : List DailyMetric :=
  sortByDate (fetched.foldl dictInsert (prior.foldl dictInsert []))

/-- Sum of the field `f` over the entries of `l` carrying date `d`. -/
def sumAt (f : DailyMetric → Nat) (d : Int) (l : List DailyMetric) : Nat :=
  ((l.filter (fun e => decide (e.date = d))).map f).sum

/-- The date bucket the aggregator produces for date `d` from the
concatenated breakdown `l`: field-wise sums of all entries at `d`. -/
def aggEntry (d : Int) (l : List DailyMetric) : DailyMetric :=
  { date := d
    views := sumAt (·.views) d l
    comments := sumAt (·.comments) d l
    reactions := sumAt (·.reactions) d l }

/-! ### Association-list lemmas for `dictInsert` / `dictOfList` -/

theorem keys_cons (y : DailyMetric) (l : List DailyMetric) :
    keys (y :: l) = y.date :: keys l := rfl

theorem keys_dictInsert (l : List DailyMetric) (x : DailyMetric) :
    keys (dictInsert l x) = if x.date ∈ keys l then keys l else keys l ++ [x.date] := by
  induction l with
  | nil => simp [dictInsert, keys]
  | cons y l ih =>
    simp only [dictInsert]
    by_cases h : y.date = x.date
    · rw [if_pos h]
      have hm : x.date ∈ keys (y :: l) := by
        rw [keys_cons, h]; exact List.mem_cons_self _ _
      rw [if_pos hm, keys_cons, keys_cons, h]
    · rw [if_neg h]
      by_cases hmem : x.date ∈ keys l
      · have hm : x.date ∈ keys (y :: l) := by
          rw [keys_cons]; exact List.mem_cons_of_mem _ hmem
        rw [if_pos hm, keys_cons, ih, if_pos hmem, keys_cons]
      · have hnm : x.date ∉ keys (y :: l) := by
          rw [keys_cons]
          intro hc
          rcases List.mem_cons.mp hc with h1 | h1
          · exact h h1.symm
          · exact hmem h1
        rw [if_neg hnm, keys_cons, ih, if_neg hmem, keys_cons, List.cons_append]

theorem nodupKeys_dictInsert {l : List DailyMetric} (x : DailyMetric)
    (h : NodupKeys l) : NodupKeys (dictInsert l x) := by
  unfold NodupKeys at *
  rw [keys_dictInsert]
  by_cases hmem : x.date ∈ keys l
  · rwa [if_pos hmem]
  · rw [if_neg hmem]
    simpa [List.nodup_append] using ⟨h, fun hc => hmem hc⟩

theorem nodupKeys_dictOfList (l : List DailyMetric) : NodupKeys (dictOfList l) := by
  suffices h : ∀ acc, NodupKeys acc → NodupKeys (l.foldl dictInsert acc) from
    h [] (by simp [NodupKeys, keys])
  induction l with
  | nil => intro acc hacc; simpa using hacc
  | cons x l ih =>
    intro acc hacc
    exact ih _ (nodupKeys_dictInsert x hacc)

theorem findAt_nil (d : Int) : findAt d [] = none := rfl

theorem findAt_cons (d : Int) (y : DailyMetric) (l : List DailyMetric) :
    findAt d (y :: l) = if y.date = d then some y else findAt d l := by
  by_cases h : y.date = d
  · rw [if_pos h]
    exact List.find?_cons_of_pos _ (by simp [h])
  · rw [if_neg h]
    exact List.find?_cons_of_neg _ (by simp [h])

theorem findAt_dictInsert (d : Int) (l : List DailyMetric) (x : DailyMetric) :
    findAt d (dictInsert l x) = if x.date = d then some x else findAt d l := by
  induction l with
  | nil =>
    show findAt d [x] = _
    rw [findAt_cons, findAt_nil]
  | cons y l ih =>
    simp only [dictInsert]
    by_cases hyx : y.date = x.date
    · rw [if_pos hyx, findAt_cons, findAt_cons]
      by_cases hxd : x.date = d
      · rw [if_pos hxd, if_pos hxd]
      · have hyd : ¬ y.date = d := fun hc => hxd (hyx ▸ hc)
        rw [if_neg hxd, if_neg hxd, if_neg hyd]
    · rw [if_neg hyx, findAt_cons, findAt_cons, ih]
      by_cases hyd : y.date = d
      · have hxd : ¬ x.date = d := fun hc => hyx (hyd.trans hc.symm)
        rw [if_pos hyd, if_neg hxd, if_pos hyd]
      · rw [if_neg hyd, if_neg hyd]

theorem lastAt_nil (d : Int) : lastAt d [] = none := rfl

theorem lastAt_cons (d : Int) (x : DailyMetric) (l : List DailyMetric) :
    lastAt d (x :: l) = orElseO (lastAt d l) (if x.date = d then some x else none) := rfl

theorem lastAt_append (d : Int) (a b : List DailyMetric) :
    lastAt d (a ++ b) = orElseO (lastAt d b) (lastAt d a) := by
  induction a with
  | nil =>
    rw [List.nil_append, lastAt_nil]
    cases lastAt d b <;> rfl
  | cons x a ih =>
    rw [List.cons_append, lastAt_cons, ih, lastAt_cons]
    cases lastAt d b <;> cases lastAt d a <;> rfl

theorem findAt_foldl_dictInsert (d : Int) (l : List DailyMetric) :
    ∀ acc, findAt d (l.foldl dictInsert acc) = orElseO (lastAt d l) (findAt d acc) := by
  induction l with
  | nil => intro acc; rw [List.foldl_nil, lastAt_nil, orElseO_none]
  | cons x l ih =>
    intro acc
    rw [List.foldl_cons, ih, findAt_dictInsert, lastAt_cons]
    cases h : lastAt d l with
    | some v => rfl
    | none =>
      by_cases hxd : x.date = d
      · simp only [if_pos hxd]; rfl
      · simp only [if_neg hxd]; rfl

theorem findAt_dictOfList (d : Int) (l : List DailyMetric) :
    findAt d (dictOfList l) = lastAt d l := by
  rw [dictOfList, findAt_foldl_dictInsert, findAt_nil]
  cases lastAt d l <;> rfl

/-! ### Lookup, membership and permutation lemmas -/

theorem findAt_eq_none_iff (d : Int) (l : List DailyMetric) :
    findAt d l = none ↔ ∀ e ∈ l, e.date ≠ d := by
  simp [findAt, List.find?_eq_none]

theorem mem_of_findAt_eq_some {d : Int} {l : List DailyMetric} {e : DailyMetric}
    (h : findAt d l = some e) : e ∈ l ∧ e.date = d := by
  refine ⟨List.mem_of_find?_eq_some h, ?_⟩
  have := List.find?_some h
  simpa using this

theorem findAt_eq_some_of_mem {l : List DailyMetric} {e : DailyMetric}
    (hmem : e ∈ l) (hnd : NodupKeys l) : findAt e.date l = some e := by
  induction l with
  | nil => cases hmem
  | cons x l ih =>
    rw [findAt_cons]
    rcases List.mem_cons.mp hmem with rfl | hmem'
    · rw [if_pos rfl]
    · have hx : x.date ∉ keys l := by
        have := hnd
        rw [NodupKeys, keys_cons, List.nodup_cons] at this
        exact this.1
      have hne : ¬ x.date = e.date := fun hc =>
        hx (hc ▸ List.mem_map_of_mem (·.date) hmem')
      rw [if_neg hne]
      have hnd' : NodupKeys l := by
        have := hnd
        rw [NodupKeys, keys_cons, List.nodup_cons] at this
        exact this.2
      exact ih hmem' hnd'

theorem NodupKeys.tail {x : DailyMetric} {l : List DailyMetric}
    (h : NodupKeys (x :: l)) : NodupKeys l := by
  rw [NodupKeys, keys_cons, List.nodup_cons] at h
  exact h.2

theorem NodupKeys.head_not_mem {x : DailyMetric} {l : List DailyMetric}
    (h : NodupKeys (x :: l)) : x.date ∉ keys l := by
  rw [NodupKeys, keys_cons, List.nodup_cons] at h
  exact h.1

theorem nodupKeys_of_perm {l₁ l₂ : List DailyMetric} (p : l₁.Perm l₂)
    (h : NodupKeys l₁) : NodupKeys l₂ := by
  unfold NodupKeys keys at *
  exact (p.map (·.date)).nodup_iff.mp h

theorem findAt_perm {l₁ l₂ : List DailyMetric} (p : l₁.Perm l₂)
    (hnd : NodupKeys l₁) (d : Int) : findAt d l₁ = findAt d l₂ := by
  cases h : findAt d l₁ with
  | none =>
    rw [findAt_eq_none_iff] at h
    symm
    rw [findAt_eq_none_iff]
    exact fun e he => h e (p.symm.subset he)
  | some e =>
    obtain ⟨hmem, hdate⟩ := mem_of_findAt_eq_some h
    symm
    rw [← hdate]
    exact findAt_eq_some_of_mem (p.subset hmem) (nodupKeys_of_perm p hnd)

theorem perm_of_findAt_eq :
    ∀ {l₁ l₂ : List DailyMetric}, NodupKeys l₁ → NodupKeys l₂ →
      (∀ d, findAt d l₁ = findAt d l₂) → l₁.Perm l₂ := by
  intro l₁
  induction l₁ with
  | nil =>
    intro l₂ _ hnd₂ hf
    cases l₂ with
    | nil => exact List.Perm.refl _
    | cons e t =>
      exfalso
      have h1 : findAt e.date ([] : List DailyMetric) = none := rfl
      have h2 : findAt e.date (e :: t) = some e := by rw [findAt_cons, if_pos rfl]
      rw [hf e.date, h2] at h1
      cases h1
  | cons x l₁ ih =>
    intro l₂ hnd₁ hnd₂ hf
    have hx₂ : findAt x.date l₂ = some x := by
      rw [← hf x.date, findAt_cons, if_pos rfl]
    obtain ⟨s, t, rfl⟩ := List.append_of_mem (mem_of_findAt_eq_some hx₂).1
    have pmid : (s ++ x :: t).Perm (x :: (s ++ t)) := List.perm_middle
    have hnd₂' : NodupKeys (x :: (s ++ t)) := nodupKeys_of_perm pmid hnd₂
    have hrest : l₁.Perm (s ++ t) := by
      apply ih hnd₁.tail hnd₂'.tail
      intro d
      by_cases hd : d = x.date
      · have h₁ : findAt d l₁ = none := by
          rw [findAt_eq_none_iff]
          intro e he hc
          exact hnd₁.head_not_mem ((hc.trans hd) ▸ List.mem_map_of_mem (·.date) he)
        have h₂ : findAt d (s ++ t) = none := by
          rw [findAt_eq_none_iff]
          intro e he hc
          exact hnd₂'.head_not_mem ((hc.trans hd) ▸ List.mem_map_of_mem (·.date) he)
        rw [h₁, h₂]
      · have e₁ : findAt d (x :: l₁) = findAt d l₁ := by
          rw [findAt_cons, if_neg (fun hc => hd hc.symm)]
        have e₂ : findAt d (x :: (s ++ t)) = findAt d (s ++ t) := by
          rw [findAt_cons, if_neg (fun hc => hd hc.symm)]
        rw [← e₁, hf d, findAt_perm pmid hnd₂ d, e₂]
    exact (hrest.cons x).trans pmid.symm

/-- Two lists that are permutations of each other, are both `Pairwise r`
and whose members satisfy antisymmetry of `r` are equal (generic
uniqueness of sorted orderings). -/
theorem eq_of_perm_of_pairwise {α : Type _} {r : α → α → Prop} :
    ∀ {l₁ l₂ : List α}, l₁.Perm l₂ → l₁.Pairwise r → l₂.Pairwise r →
      (∀ a ∈ l₁, ∀ b ∈ l₁, r a b → r b a → a = b) → l₁ = l₂ := by
  intro l₁
  induction l₁ with
  | nil =>
    intro l₂ p _ _ _
    exact (p.symm.eq_nil).symm
  | cons a l₁ ih =>
    intro l₂ p h₁ h₂ hant
    cases l₂ with
    | nil => exact absurd (p.subset (List.mem_cons_self a l₁)) (List.not_mem_nil a)
    | cons b t =>
      have hab : a = b := by
        by_contra hne
        have hat : a ∈ t := by
          rcases List.mem_cons.mp (p.subset (List.mem_cons_self a l₁)) with h | h
          · exact absurd h hne
          · exact h
        have hbl : b ∈ l₁ := by
          rcases List.mem_cons.mp (p.symm.subset (List.mem_cons_self b t)) with h | h
          · exact absurd h.symm hne
          · exact h
        have hrab : r a b := (List.pairwise_cons.mp h₁).1 b hbl
        have hrba : r b a := (List.pairwise_cons.mp h₂).1 a hat
        exact hne (hant a (List.mem_cons_self a l₁) b (List.mem_cons_of_mem a hbl) hrab hrba)
      subst hab
      have p' : l₁.Perm t := p.cons_inv
      have hant' : ∀ x ∈ l₁, ∀ y ∈ l₁, r x y → r y x → x = y := fun x hx y hy =>
        hant x (List.mem_cons_of_mem a hx) y (List.mem_cons_of_mem a hy)
      rw [ih p' (List.pairwise_cons.mp h₁).2 (List.pairwise_cons.mp h₂).2 hant']

/-! ### Sorting lemmas -/

theorem sortByDate_perm (l : List DailyMetric) : (sortByDate l).Perm l :=
  List.perm_insertionSort dateLe l

theorem sorted_sortByDate (l : List DailyMetric) : List.Sorted dateLe (sortByDate l) :=
  List.sorted_insertionSort dateLe l

theorem pairwise_dateLt_of_sorted_nodup {l : List DailyMetric}
    (hs : List.Sorted dateLe l) (hnd : NodupKeys l) : l.Pairwise dateLt := by
  have hne : l.Pairwise (fun a b => a.date ≠ b.date) := by
    rw [NodupKeys, keys] at hnd
    exact List.pairwise_map.mp hnd
  exact (hs.and hne).imp (fun h => lt_of_le_of_ne h.1 h.2)

theorem pairwise_dateLt_sortByDate {l : List DailyMetric} (hnd : NodupKeys l) :
    (sortByDate l).Pairwise dateLt :=
  pairwise_dateLt_of_sorted_nodup (sorted_sortByDate l)
    (nodupKeys_of_perm (sortByDate_perm l).symm hnd)

theorem sortByDate_eq_of_perm {l₁ l₂ : List DailyMetric} (p : l₁.Perm l₂)
    (hnd : NodupKeys l₁) : sortByDate l₁ = sortByDate l₂ := by
  have hnd₂ : NodupKeys l₂ := nodupKeys_of_perm p hnd
  have p' : (sortByDate l₁).Perm (sortByDate l₂) :=
    ((sortByDate_perm l₁).trans p).trans (sortByDate_perm l₂).symm
  exact eq_of_perm_of_pairwise p' (pairwise_dateLt_sortByDate hnd)
    (pairwise_dateLt_sortByDate hnd₂)
    (fun a _ b _ h₁ h₂ => absurd (lt_trans h₁ h₂) (lt_irrefl _))

theorem lastAt_eq_findAt_of_nodup {l : List DailyMetric} (hnd : NodupKeys l)
    (d : Int) : lastAt d l = findAt d l := by
  induction l with
  | nil => rfl
  | cons x l ih =>
    rw [lastAt_cons, findAt_cons, ih hnd.tail]
    by_cases hxd : x.date = d
    · have hnone : findAt d l = none := by
        rw [findAt_eq_none_iff]
        intro e he hc
        exact hnd.head_not_mem (hxd ▸ hc ▸ List.mem_map_of_mem (·.date) he)
      rw [hnone, if_pos hxd]
      rfl
    · rw [if_neg hxd, if_neg hxd]
      cases findAt d l <;> rfl

/-! ### Merge-engine lemmas -/

theorem nodupKeys_mergeBreakdown (a b : List DailyMetric) :
    NodupKeys (mergeBreakdown a b) := by
  unfold mergeBreakdown
  exact nodupKeys_of_perm (sortByDate_perm _).symm (nodupKeys_dictOfList _)

theorem pairwise_dateLt_mergeBreakdown (a b : List DailyMetric) :
    (mergeBreakdown a b).Pairwise dateLt := by
  unfold mergeBreakdown
  exact pairwise_dateLt_sortByDate (nodupKeys_dictOfList _)

theorem findAt_mergeBreakdown (a b : List DailyMetric) (d : Int) :
    findAt d (mergeBreakdown a b) = lastAt d (a ++ b) := by
  unfold mergeBreakdown
  rw [← findAt_dictOfList]
  exact findAt_perm (sortByDate_perm _)
    (nodupKeys_of_perm (sortByDate_perm _).symm (nodupKeys_dictOfList _)) d

theorem mergeBreakdown_eq_of_lastAt {a b c e : List DailyMetric}
    (h : ∀ d, lastAt d (a ++ b) = lastAt d (c ++ e)) :
    mergeBreakdown a b = mergeBreakdown c e := by
  unfold mergeBreakdown
  refine sortByDate_eq_of_perm ?_ (nodupKeys_dictOfList _)
  apply perm_of_findAt_eq (nodupKeys_dictOfList _) (nodupKeys_dictOfList _)
  intro d
  rw [findAt_dictOfList, findAt_dictOfList, h]

/-- C1: Merging the same fetched date-to-metrics data into a prior
breakdown twice (merging the fetched data into the result of the first
merge) yields the same final breakdown as merging it once: no duplicate
dates appear and the recomputed views/comments/reactions totals are
unchanged by the second merge. -/
theorem merge_idempotent (prior fetched : List DailyMetric) :
    mergeBreakdown (mergeBreakdown prior fetched) fetched = mergeBreakdown prior fetched ∧
    NodupKeys (mergeBreakdown (mergeBreakdown prior fetched) fetched) ∧
    sumViews (mergeBreakdown (mergeBreakdown prior fetched) fetched) =
      sumViews (mergeBreakdown prior fetched) ∧
    sumComments (mergeBreakdown (mergeBreakdown prior fetched) fetched) =
      sumComments (mergeBreakdown prior fetched) ∧
    sumReactions (mergeBreakdown (mergeBreakdown prior fetched) fetched) =
      sumReactions (mergeBreakdown prior fetched) := by
  have hmain : mergeBreakdown (mergeBreakdown prior fetched) fetched =
      mergeBreakdown prior fetched := by
    apply mergeBreakdown_eq_of_lastAt
    intro d
    rw [lastAt_append, lastAt_append]
    cases h : lastAt d fetched with
    | some v => rfl
    | none =>
      rw [orElseO_none, orElseO_none,
        lastAt_eq_findAt_of_nodup (nodupKeys_mergeBreakdown prior fetched),
        findAt_mergeBreakdown, lastAt_append, h, orElseO_none]
  exact ⟨hmain, nodupKeys_mergeBreakdown _ _, by rw [hmain], by rw [hmain], by rw [hmain]⟩

/-- C3: The merge result equals the values of a date-keyed map seeded
with every prior entry and then overwritten (not added to) by every
fetched entry (`mergeSpec`, worded from the spec); the fetched value wins
on every date the fetched data contains (the `orElseO` lookup
characterization); and the result is sorted strictly ascending by date
with at most one entry per date. -/
theorem merge_semantics (prior fetched : List DailyMetric) :
    mergeBreakdown prior fetched = mergeSpec prior fetched ∧
    (∀ d, findAt d (mergeBreakdown prior fetched) =
      orElseO (lastAt d fetched) (lastAt d prior)) ∧
    (mergeBreakdown prior fetched).Pairwise dateLt ∧
    NodupKeys (mergeBreakdown prior fetched) := by
  refine ⟨?_, ?_, pairwise_dateLt_mergeBreakdown prior fetched,
    nodupKeys_mergeBreakdown prior fetched⟩
  · unfold mergeBreakdown mergeSpec dictOfList
    rw [List.foldl_append]
  · intro d
    rw [findAt_mergeBreakdown, lastAt_append]

/-! ### Planner claims -/

/-- C2: With existing history whose maximum breakdown date is `D` and
today `T > D`, normal mode requests the range `[D+1, T]` with the
breakdown untouched; refresh mode requests `[D-1, T]` and evicts every
entry for date `D` before merging; and for any today earlier than `D+1`,
normal mode plans no fetch and leaves the breakdown as it is (a no-op,
not an error). -/
theorem planner_correct (b : List DailyMetric) (D T pub : Int)
    (hmax : (keys b).max? = some D) (hDT : D < T) :
    planFetch false pub T (.parsed b) = (some (getNextDate D, T), b) ∧
    planFetch true pub T (.parsed b) =
      (some (D - 1, T), b.filter (fun e => decide (e.date ≠ D))) ∧
    (∀ T', T' < getNextDate D → planFetch false pub T' (.parsed b) = (none, b)) := by
  have h1 : getNextDate D ≤ T := by unfold getNextDate; omega
  have h2 : D - 1 ≤ T := by omega
  refine ⟨?_, ?_, ?_⟩
  · simp [planFetch, hmax, h1]
  · simp [planFetch, hmax, h2]
  · intro T' hT'
    have h3 : ¬ getNextDate D ≤ T' := by omega
    simp [planFetch, hmax, h3]

theorem planner_correct_witness :
    (keys [⟨5, 1, 2, 3⟩, ⟨7, 4, 0, 1⟩]).max? = some 7 ∧ (7 : Int) < 9 ∧
    planFetch false 0 9 (.parsed [⟨5, 1, 2, 3⟩, ⟨7, 4, 0, 1⟩]) =
      (some (getNextDate 7, 9), [⟨5, 1, 2, 3⟩, ⟨7, 4, 0, 1⟩]) ∧
    planFetch true 0 9 (.parsed [⟨5, 1, 2, 3⟩, ⟨7, 4, 0, 1⟩]) =
      (some (7 - 1, 9),
        List.filter (fun e => decide (e.date ≠ 7)) [⟨5, 1, 2, 3⟩, ⟨7, 4, 0, 1⟩]) ∧
    (7 : Int) < getNextDate 7 ∧
    planFetch false 0 7 (.parsed [⟨5, 1, 2, 3⟩, ⟨7, 4, 0, 1⟩]) =
      (none, [⟨5, 1, 2, 3⟩, ⟨7, 4, 0, 1⟩]) := by
  have H := planner_correct [⟨5, 1, 2, 3⟩, ⟨7, 4, 0, 1⟩] 7 9 0 (by decide) (by decide)
  exact ⟨by decide, by decide, H.1, H.2.1, by decide, H.2.2 7 (by decide)⟩

/-- C8: An article record file that exists but fails to parse is treated
exactly like a missing file: the planner fetches from the publication
date through today with an empty prior breakdown, and `process_article`
produces the very same document it would produce with no existing
history (totally — the run continues instead of aborting). -/
theorem malformed_treated_as_new (refresh : Bool) (today : Int) (art : Article)
    (source : Int → Int → List (Int × RawCounts)) :
    processArticle refresh today art source .malformed =
      processArticle refresh today art source .absent ∧
    planFetch refresh art.published_at today .malformed =
      (some (art.published_at, today), []) :=
  ⟨rfl, rfl⟩

/-- C10: Every document `process_article` writes — in both modes, with
any fetched data including none at all — has a breakdown strictly sorted
ascending by date (hence deduplicated), and totals recomputed as
field-wise sums over that breakdown; duplicates, disorder or stale totals
in the previously stored file are thereby repaired. -/
theorem run_normalizes_output (refresh : Bool) (today : Int) (art : Article)
    (source : Int → Int → List (Int × RawCounts)) (existing : ExistingFile) :
    (processArticle refresh today art source existing).breakdown.Pairwise dateLt ∧
    NodupKeys (processArticle refresh today art source existing).breakdown ∧
    (processArticle refresh today art source existing).views =
      sumViews (processArticle refresh today art source existing).breakdown ∧
    (processArticle refresh today art source existing).comments =
      sumComments (processArticle refresh today art source existing).breakdown ∧
    (processArticle refresh today art source existing).reactions =
      sumReactions (processArticle refresh today art source existing).breakdown :=
  ⟨pairwise_dateLt_mergeBreakdown _ _, nodupKeys_mergeBreakdown _ _, rfl, rfl, rfl⟩

/-! ### Aggregator sum lemmas -/

theorem sumF_aggUpdate (f : DailyMetric → Nat)
    (hadd : ∀ e x, f (addMetrics e x) = f e + f x)
    (acc : List DailyMetric) (x : DailyMetric) :
    ((aggUpdate acc x).map f).sum = (acc.map f).sum + f x := by
  induction acc with
  | nil => simp [aggUpdate]
  | cons e l ih =>
    by_cases h : e.date = x.date
    · simp only [aggUpdate, if_pos h, List.map_cons, List.sum_cons, hadd]
      ring
    · simp only [aggUpdate, if_neg h, List.map_cons, List.sum_cons, ih]
      ring

theorem sumF_foldl_aggUpdate (f : DailyMetric → Nat)
    (hadd : ∀ e x, f (addMetrics e x) = f e + f x) (l : List DailyMetric) :
    ∀ acc, ((l.foldl aggUpdate acc).map f).sum = (acc.map f).sum + (l.map f).sum := by
  induction l with
  | nil => intro acc; simp
  | cons x l ih =>
    intro acc
    rw [List.foldl_cons, ih, sumF_aggUpdate f hadd, List.map_cons, List.sum_cons]
    ring

theorem sumF_aggregateByDate (f : DailyMetric → Nat)
    (hadd : ∀ e x, f (addMetrics e x) = f e + f x) (l : List DailyMetric) :
    ((aggregateByDate l).map f).sum = (l.map f).sum := by
  unfold aggregateByDate
  rw [((sortByDate_perm _).map f).sum_eq, sumF_foldl_aggUpdate f hadd]
  simp

theorem sumF_flatten_breakdowns (f : DailyMetric → Nat) (valid : List ArticleData) :
    (((valid.map (·.breakdown)).flatten.map f)).sum =
      (valid.map (fun a => ((a.breakdown.map f)).sum)).sum := by
  rw [List.map_flatten, List.sum_flatten, List.map_map, List.map_map]
  rfl

/-- C4: Every article document the pipeline writes has
`views = sum(breakdown[*].views)` (likewise comments and reactions), and
every account document it writes satisfies the same equation, under the
hypothesis that every valid scanned article file's totals are consistent
with its own breakdown. -/
theorem totals_invariant :
    (∀ (refresh : Bool) (today : Int) (art : Article)
        (source : Int → Int → List (Int × RawCounts)) (existing : ExistingFile),
      (processArticle refresh today art source existing).views =
        sumViews (processArticle refresh today art source existing).breakdown ∧
      (processArticle refresh today art source existing).comments =
        sumComments (processArticle refresh today art source existing).breakdown ∧
      (processArticle refresh today art source existing).reactions =
        sumReactions (processArticle refresh today art source existing).breakdown) ∧
    (∀ (count : Nat) (username : Option String) (files : List (Option ArticleData)),
      (∀ a ∈ files.filterMap id,
        a.views = sumViews a.breakdown ∧ a.comments = sumComments a.breakdown ∧
          a.reactions = sumReactions a.breakdown) →
      (updateAccountStats count username files).views =
        sumViews (updateAccountStats count username files).breakdown ∧
      (updateAccountStats count username files).comments =
        sumComments (updateAccountStats count username files).breakdown ∧
      (updateAccountStats count username files).reactions =
        sumReactions (updateAccountStats count username files).breakdown) := by
  constructor
  · intro refresh today art source existing
    exact ⟨rfl, rfl, rfl⟩
  · intro count username files hcons
    refine ⟨?_, ?_, ?_⟩
    · show ((files.filterMap id).map (·.views)).sum =
        sumViews (aggregateByDate ((files.filterMap id).map (·.breakdown)).flatten)
      rw [sumViews, sumF_aggregateByDate (·.views) (fun _ _ => rfl),
        sumF_flatten_breakdowns]
      exact (List.map_congr_left (fun a ha => ((hcons a ha).1).symm)).symm ▸ rfl
    · show ((files.filterMap id).map (·.comments)).sum =
        sumComments (aggregateByDate ((files.filterMap id).map (·.breakdown)).flatten)
      rw [sumComments, sumF_aggregateByDate (·.comments) (fun _ _ => rfl),
        sumF_flatten_breakdowns]
      exact (List.map_congr_left (fun a ha => ((hcons a ha).2.1).symm)).symm ▸ rfl
    · show ((files.filterMap id).map (·.reactions)).sum =
        sumReactions (aggregateByDate ((files.filterMap id).map (·.breakdown)).flatten)
      rw [sumReactions, sumF_aggregateByDate (·.reactions) (fun _ _ => rfl),
        sumF_flatten_breakdowns]
      exact (List.map_congr_left (fun a ha => ((hcons a ha).2.2).symm)).symm ▸ rfl

theorem totals_invariant_witness :
    (∀ a ∈ ([some ⟨"t", 10, 2, 3, none, [⟨1, 4, 1, 1⟩, ⟨2, 6, 1, 2⟩]⟩,
        none] : List (Option ArticleData)).filterMap id,
      a.views = sumViews a.breakdown ∧ a.comments = sumComments a.breakdown ∧
        a.reactions = sumReactions a.breakdown) ∧
    ((updateAccountStats 2 (some "u")
        [some ⟨"t", 10, 2, 3, none, [⟨1, 4, 1, 1⟩, ⟨2, 6, 1, 2⟩]⟩, none]).views =
      sumViews (updateAccountStats 2 (some "u")
        [some ⟨"t", 10, 2, 3, none, [⟨1, 4, 1, 1⟩, ⟨2, 6, 1, 2⟩]⟩, none]).breakdown) :=
  ⟨by decide,
    (totals_invariant.2 2 (some "u")
      [some ⟨"t", 10, 2, 3, none, [⟨1, 4, 1, 1⟩, ⟨2, 6, 1, 2⟩]⟩, none] (by decide)).1⟩

/-! ### Fetch-failure behaviour (C5) -/

theorem keys_append (a b : List DailyMetric) : keys (a ++ b) = keys a ++ keys b :=
  List.map_append _ a b

theorem dictInsert_append {acc : List DailyMetric} {x : DailyMetric}
    (h : x.date ∉ keys acc) : dictInsert acc x = acc ++ [x] := by
  induction acc with
  | nil => rfl
  | cons y l ih =>
    have hyx : ¬ y.date = x.date := by
      intro hc
      exact h (by rw [keys_cons, ← hc]; exact List.mem_cons_self _ _)
    have hx : x.date ∉ keys l := by
      intro hc
      exact h (by rw [keys_cons]; exact List.mem_cons_of_mem _ hc)
    simp only [dictInsert, if_neg hyx, ih hx, List.cons_append]

theorem foldl_dictInsert_append (b : List DailyMetric) :
    ∀ acc, NodupKeys (acc ++ b) → b.foldl dictInsert acc = acc ++ b := by
  induction b with
  | nil => intro acc _; simp
  | cons x b ih =>
    intro acc h
    have hx : x.date ∉ keys acc := by
      intro hc
      rw [NodupKeys, keys_append, List.nodup_append] at h
      exact h.2.2 hc (by rw [keys_cons]; exact List.mem_cons_self _ _)
    have hacc : NodupKeys ((acc ++ [x]) ++ b) := by
      rw [List.append_assoc, List.singleton_append]
      exact h
    rw [List.foldl_cons, dictInsert_append hx, ih _ hacc, List.append_assoc,
      List.singleton_append]

theorem dictOfList_eq_self {b : List DailyMetric} (h : NodupKeys b) :
    dictOfList b = b := by
  rw [dictOfList, foldl_dictInsert_append b [] (by simpa using h), List.nil_append]

theorem nodupKeys_of_pairwise_dateLt {b : List DailyMetric}
    (h : b.Pairwise dateLt) : NodupKeys b := by
  rw [NodupKeys, keys, List.Nodup]
  exact List.pairwise_map.mpr (h.imp (fun hlt => ne_of_lt hlt))

theorem mergeBreakdown_nil_right {b : List DailyMetric} (h : b.Pairwise dateLt) :
    mergeBreakdown b [] = b := by
  rw [mergeBreakdown, List.append_nil, dictOfList_eq_self (nodupKeys_of_pairwise_dateLt h)]
  exact List.Sorted.insertionSort_eq (h.imp (fun hlt => le_of_lt hlt))

theorem planFetch_snd_normal (pub today : Int) (b : List DailyMetric) :
    (planFetch false pub today (.parsed b)).2 = b := by
  cases h : (keys b).max? with
  | none => simp [planFetch, h]
  | some last =>
    by_cases hle : getNextDate last ≤ today <;> simp [planFetch, h, hle]

theorem planFetch_snd_refresh (pub today : Int) (b : List DailyMetric) (D : Int)
    (hmax : (keys b).max? = some D) :
    (planFetch true pub today (.parsed b)).2 =
      b.filter (fun e => decide (e.date ≠ D)) := by
  by_cases hle : D - 1 ≤ today <;> simp [planFetch, hmax, hle]

theorem processArticle_breakdown_empty_source (refresh : Bool) (today : Int)
    (art : Article) (existing : ExistingFile) :
    (processArticle refresh today art (fun _ _ => []) existing).breakdown =
      mergeBreakdown (planFetch refresh art.published_at today existing).2 [] := by
  unfold processArticle
  cases h : (planFetch refresh art.published_at today existing).1 with
  | none => simp [h]
  | some se => simp [h, processAnalyticsData, sortByDate, List.insertionSort]

/-- C5 as stated is false: in refresh-last-day mode the entry for the
last recorded date is evicted before the fetch, so a failed fetch (empty
analytics result) rewrites the article file without it — a recorded date
is lost. Concrete input: history `[{date 1}, {date 2}]`, refresh mode,
today = 2, fetch fails. -/
theorem fetch_failure_not_atomic :
    (processArticle true 2 ⟨1, "s", 1, "t", none⟩ (fun _ _ => [])
        (.parsed [⟨1, 10, 0, 0⟩, ⟨2, 5, 0, 0⟩])).breakdown
      ≠ [⟨1, 10, 0, 0⟩, ⟨2, 5, 0, 0⟩] := by decide

/-- C5 (amended): With a normalized stored file (breakdown strictly
sorted by date), a failed analytics fetch leaves the persisted history
unchanged in normal mode — breakdown identical, totals recomputed to
the same sums; in refresh mode the run instead persists the prior
breakdown with every entry for the last date `D` removed (the evicted
date is lost; all other dates are preserved). -/
theorem fetch_failure_atomicity_amended (today : Int) (art : Article)
    (prior : List DailyMetric) (D : Int)
    (hsorted : prior.Pairwise dateLt) (hmax : (keys prior).max? = some D) :
    (processArticle false today art (fun _ _ => []) (.parsed prior)).breakdown = prior ∧
    (processArticle false today art (fun _ _ => []) (.parsed prior)).views =
      sumViews prior ∧
    (processArticle false today art (fun _ _ => []) (.parsed prior)).comments =
      sumComments prior ∧
    (processArticle false today art (fun _ _ => []) (.parsed prior)).reactions =
      sumReactions prior ∧
    (processArticle true today art (fun _ _ => []) (.parsed prior)).breakdown =
      prior.filter (fun e => decide (e.date ≠ D)) := by
  have hb : (processArticle false today art (fun _ _ => []) (.parsed prior)).breakdown =
      prior := by
    rw [processArticle_breakdown_empty_source, planFetch_snd_normal,
      mergeBreakdown_nil_right hsorted]
  have hbr : (processArticle true today art (fun _ _ => []) (.parsed prior)).breakdown =
      prior.filter (fun e => decide (e.date ≠ D)) := by
    rw [processArticle_breakdown_empty_source, planFetch_snd_refresh _ _ _ D hmax,
      mergeBreakdown_nil_right (List.Pairwise.sublist (List.filter_sublist _) hsorted)]
  refine ⟨hb, ?_, ?_, ?_, hbr⟩
  · show sumViews (processArticle false today art (fun _ _ => [])
      (.parsed prior)).breakdown = sumViews prior
    rw [hb]
  · show sumComments (processArticle false today art (fun _ _ => [])
      (.parsed prior)).breakdown = sumComments prior
    rw [hb]
  · show sumReactions (processArticle false today art (fun _ _ => [])
      (.parsed prior)).breakdown = sumReactions prior
    rw [hb]

theorem fetch_failure_atomicity_amended_witness :
    ([⟨1, 4, 1, 1⟩, ⟨2, 6, 1, 2⟩] : List DailyMetric).Pairwise dateLt ∧
    (keys [⟨1, 4, 1, 1⟩, ⟨2, 6, 1, 2⟩]).max? = some 2 ∧
    (processArticle false 2 ⟨1, "s", 1, "t", none⟩ (fun _ _ => [])
        (.parsed [⟨1, 4, 1, 1⟩, ⟨2, 6, 1, 2⟩])).breakdown =
      [⟨1, 4, 1, 1⟩, ⟨2, 6, 1, 2⟩] ∧
    (processArticle true 2 ⟨1, "s", 1, "t", none⟩ (fun _ _ => [])
        (.parsed [⟨1, 4, 1, 1⟩, ⟨2, 6, 1, 2⟩])).breakdown =
      List.filter (fun e => decide (e.date ≠ 2)) [⟨1, 4, 1, 1⟩, ⟨2, 6, 1, 2⟩] := by
  have H := fetch_failure_atomicity_amended 2 ⟨1, "s", 1, "t", none⟩
    [⟨1, 4, 1, 1⟩, ⟨2, 6, 1, 2⟩] 2 (by decide) (by decide)
  exact ⟨by decide, by decide, H.1, H.2.2.2.2⟩

/-! ### Aggregator lookup characterization (C7) -/

theorem addMetrics_date (e x : DailyMetric) : (addMetrics e x).date = e.date := rfl

theorem keys_aggUpdate (l : List DailyMetric) (x : DailyMetric) :
    keys (aggUpdate l x) = if x.date ∈ keys l then keys l else keys l ++ [x.date] := by
  induction l with
  | nil => simp [aggUpdate, keys]
  | cons y l ih =>
    simp only [aggUpdate]
    by_cases h : y.date = x.date
    · rw [if_pos h]
      have hm : x.date ∈ keys (y :: l) := by
        rw [keys_cons, h]; exact List.mem_cons_self _ _
      rw [if_pos hm]
      rfl
    · rw [if_neg h]
      by_cases hmem : x.date ∈ keys l
      · have hm : x.date ∈ keys (y :: l) := by
          rw [keys_cons]; exact List.mem_cons_of_mem _ hmem
        rw [if_pos hm, keys_cons, ih, if_pos hmem, keys_cons]
      · have hnm : x.date ∉ keys (y :: l) := by
          rw [keys_cons]
          intro hc
          rcases List.mem_cons.mp hc with h1 | h1
          · exact h h1.symm
          · exact hmem h1
        rw [if_neg hnm, keys_cons, ih, if_neg hmem, keys_cons, List.cons_append]

theorem nodupKeys_aggUpdate {l : List DailyMetric} (x : DailyMetric)
    (h : NodupKeys l) : NodupKeys (aggUpdate l x) := by
  unfold NodupKeys at *
  rw [keys_aggUpdate]
  by_cases hmem : x.date ∈ keys l
  · rwa [if_pos hmem]
  · rw [if_neg hmem]
    simpa [List.nodup_append] using ⟨h, fun hc => hmem hc⟩

theorem nodupKeys_aggOfList (l : List DailyMetric) :
    NodupKeys (l.foldl aggUpdate []) := by
  suffices h : ∀ acc, NodupKeys acc → NodupKeys (l.foldl aggUpdate acc) from
    h [] (by simp [NodupKeys, keys])
  induction l with
  | nil => intro acc hacc; simpa using hacc
  | cons x l ih =>
    intro acc hacc
    exact ih _ (nodupKeys_aggUpdate x hacc)

theorem findAt_aggUpdate_of_ne {d : Int} {x : DailyMetric} (acc : List DailyMetric)
    (hxd : ¬ x.date = d) : findAt d (aggUpdate acc x) = findAt d acc := by
  induction acc with
  | nil =>
    show findAt d [x] = findAt d []
    rw [findAt_cons, if_neg hxd, findAt_nil]
  | cons e l ih =>
    simp only [aggUpdate]
    by_cases hed : e.date = x.date
    · rw [if_pos hed, findAt_cons, findAt_cons, addMetrics_date]
      have hend : ¬ e.date = d := fun hc => hxd (hed ▸ hc)
      rw [if_neg hend, if_neg hend]
    · rw [if_neg hed, findAt_cons, findAt_cons, ih]

theorem findAt_aggUpdate_some {d : Int} {x e : DailyMetric} {acc : List DailyMetric}
    (hxd : x.date = d) (he : findAt d acc = some e) :
    findAt d (aggUpdate acc x) = some (addMetrics e x) := by
  induction acc with
  | nil => rw [findAt_nil] at he; cases he
  | cons y l ih =>
    rw [findAt_cons] at he
    simp only [aggUpdate]
    by_cases hyd : y.date = d
    · rw [if_pos hyd] at he
      have hyx : y.date = x.date := hyd.trans hxd.symm
      rw [if_pos hyx, findAt_cons, addMetrics_date, if_pos hyd]
      rw [Option.some_inj] at he
      rw [he]
    · rw [if_neg hyd] at he
      have hyx : ¬ y.date = x.date := fun hc => hyd (hc.trans hxd)
      rw [if_neg hyx, findAt_cons, if_neg hyd, ih he]

theorem findAt_aggUpdate_none {d : Int} {x : DailyMetric} {acc : List DailyMetric}
    (hxd : x.date = d) (he : findAt d acc = none) :
    findAt d (aggUpdate acc x) = some x := by
  induction acc with
  | nil =>
    show findAt d [x] = some x
    rw [findAt_cons, if_pos hxd]
  | cons y l ih =>
    rw [findAt_cons] at he
    by_cases hyd : y.date = d
    · rw [if_pos hyd] at he; cases he
    · rw [if_neg hyd] at he
      have hyx : ¬ y.date = x.date := fun hc => hyd (hc.trans hxd)
      simp only [aggUpdate, if_neg hyx]
      rw [findAt_cons, if_neg hyd, ih he]

theorem sumAt_nil (f : DailyMetric → Nat) (d : Int) : sumAt f d [] = 0 := rfl

theorem sumAt_cons (f : DailyMetric → Nat) (d : Int) (x : DailyMetric)
    (l : List DailyMetric) :
    sumAt f d (x :: l) = (if x.date = d then f x else 0) + sumAt f d l := by
  unfold sumAt
  by_cases h : x.date = d
  · simp [List.filter_cons, h]
  · simp [List.filter_cons, h]

theorem addMetrics_aggEntry_nil (e : DailyMetric) (d : Int) :
    addMetrics e (aggEntry d []) = e := by
  cases e
  simp [addMetrics, aggEntry, sumAt]

theorem addMetrics_aggEntry_cons_of_eq {x : DailyMetric} {d : Int}
    (hxd : x.date = d) (e : DailyMetric) (l : List DailyMetric) :
    addMetrics (addMetrics e x) (aggEntry d l) = addMetrics e (aggEntry d (x :: l)) := by
  cases e
  simp [addMetrics, aggEntry, sumAt_cons, hxd, Nat.add_assoc]

theorem aggEntry_cons_of_eq {x : DailyMetric} {d : Int} (hxd : x.date = d)
    (l : List DailyMetric) :
    addMetrics x (aggEntry d l) = aggEntry d (x :: l) := by
  cases x
  simp only [addMetrics, aggEntry, sumAt_cons]
  simp_all

theorem aggEntry_cons_of_ne {x : DailyMetric} {d : Int} (hxd : ¬ x.date = d)
    (l : List DailyMetric) : aggEntry d (x :: l) = aggEntry d l := by
  simp [aggEntry, sumAt_cons, hxd]

theorem findAt_foldl_aggUpdate (l : List DailyMetric) :
    ∀ (acc : List DailyMetric) (d : Int),
      findAt d (l.foldl aggUpdate acc) =
        match findAt d acc with
        | some e => some (addMetrics e (aggEntry d l))
        | none => if d ∈ keys l then some (aggEntry d l) else none := by
  induction l with
  | nil =>
    intro acc d
    rw [List.foldl_nil]
    cases h : findAt d acc with
    | some e =>
      dsimp only
      rw [addMetrics_aggEntry_nil]
    | none =>
      dsimp only
      simp [keys]
  | cons x l ih =>
    intro acc d
    rw [List.foldl_cons, ih]
    by_cases hxd : x.date = d
    · cases h : findAt d acc with
      | some e =>
        rw [findAt_aggUpdate_some hxd h]
        dsimp only
        rw [addMetrics_aggEntry_cons_of_eq hxd]
      | none =>
        rw [findAt_aggUpdate_none hxd h]
        dsimp only
        have hmem : d ∈ keys (x :: l) := by
          rw [keys_cons, ← hxd]; exact List.mem_cons_self _ _
        rw [if_pos hmem, aggEntry_cons_of_eq hxd]
    · rw [findAt_aggUpdate_of_ne acc hxd]
      cases h : findAt d acc with
      | some e =>
        dsimp only
        rw [aggEntry_cons_of_ne hxd]
      | none =>
        dsimp only
        have hmem : d ∈ keys (x :: l) ↔ d ∈ keys l := by
          rw [keys_cons]
          constructor
          · intro hc
            rcases List.mem_cons.mp hc with h1 | h1
            · exact absurd h1.symm hxd
            · exact h1
          · exact List.mem_cons_of_mem _
        by_cases hm : d ∈ keys l
        · rw [if_pos (hmem.mpr hm), if_pos hm, aggEntry_cons_of_ne hxd]
        · rw [if_neg (fun hc => hm (hmem.mp hc)), if_neg hm]

theorem findAt_aggOfList (d : Int) (l : List DailyMetric) :
    findAt d (l.foldl aggUpdate []) =
      if d ∈ keys l then some (aggEntry d l) else none := by
  rw [findAt_foldl_aggUpdate l [] d, findAt_nil]

theorem findAt_aggregateByDate (d : Int) (l : List DailyMetric) :
    findAt d (aggregateByDate l) =
      if d ∈ keys l then some (aggEntry d l) else none := by
  unfold aggregateByDate
  rw [← findAt_aggOfList]
  exact findAt_perm (sortByDate_perm _)
    (nodupKeys_of_perm (sortByDate_perm _).symm (nodupKeys_aggOfList _)) d

theorem sumAt_perm (f : DailyMetric → Nat) (d : Int) {l₁ l₂ : List DailyMetric}
    (p : l₁.Perm l₂) : sumAt f d l₁ = sumAt f d l₂ := by
  unfold sumAt
  exact ((p.filter _).map f).sum_eq

theorem aggEntry_perm (d : Int) {l₁ l₂ : List DailyMetric} (p : l₁.Perm l₂) :
    aggEntry d l₁ = aggEntry d l₂ := by
  unfold aggEntry
  rw [sumAt_perm _ d p, sumAt_perm _ d p, sumAt_perm _ d p]

theorem aggregateByDate_perm {l₁ l₂ : List DailyMetric} (p : l₁.Perm l₂) :
    aggregateByDate l₁ = aggregateByDate l₂ := by
  unfold aggregateByDate
  refine sortByDate_eq_of_perm ?_ (nodupKeys_aggOfList _)
  apply perm_of_findAt_eq (nodupKeys_aggOfList _) (nodupKeys_aggOfList _)
  intro d
  rw [findAt_aggOfList, findAt_aggOfList]
  have hmem : d ∈ keys l₁ ↔ d ∈ keys l₂ := (p.map (·.date)).mem_iff
  by_cases hm : d ∈ keys l₁
  · rw [if_pos hm, if_pos (hmem.mp hm), aggEntry_perm d p]
  · rw [if_neg hm, if_neg (fun hc => hm (hmem.mpr hc))]

theorem sumAt_append (f : DailyMetric → Nat) (d : Int) (a b : List DailyMetric) :
    sumAt f d (a ++ b) = sumAt f d a + sumAt f d b := by
  unfold sumAt
  rw [List.filter_append, List.map_append, List.sum_append]

theorem sumAt_flatten (f : DailyMetric → Nat) (d : Int) (L : List (List DailyMetric)) :
    sumAt f d L.flatten = (L.map (sumAt f d)).sum := by
  induction L with
  | nil => rfl
  | cons lb L ih =>
    rw [List.flatten_cons, sumAt_append, List.map_cons, List.sum_cons, ih]

theorem aggEntry_flatten (d : Int) (valid : List ArticleData) :
    aggEntry d ((valid.map (·.breakdown)).flatten) =
      { date := d
        views := (valid.map (fun a => sumAt (·.views) d a.breakdown)).sum
        comments := (valid.map (fun a => sumAt (·.comments) d a.breakdown)).sum
        reactions := (valid.map (fun a => sumAt (·.reactions) d a.breakdown)).sum } := by
  unfold aggEntry
  rw [sumAt_flatten, sumAt_flatten, sumAt_flatten, List.map_map, List.map_map,
    List.map_map]
  rfl

/-- C7: Each per-date entry of the account breakdown is the field-wise
sum, over all valid article records, of that article's metrics at that
date (a pure reduction, no overwrite), and the whole account document is
invariant under permutation of the order in which the article record
files are processed. -/
theorem aggregation_commutative (count : Nat) (username : Option String)
    (files : List (Option ArticleData)) :
    (∀ d, findAt d (updateAccountStats count username files).breakdown =
      (if d ∈ keys (((files.filterMap id).map (·.breakdown)).flatten)
       then some
         { date := d
           views := ((files.filterMap id).map
             (fun a => sumAt (·.views) d a.breakdown)).sum
           comments := ((files.filterMap id).map
             (fun a => sumAt (·.comments) d a.breakdown)).sum
           reactions := ((files.filterMap id).map
             (fun a => sumAt (·.reactions) d a.breakdown)).sum }
       else none)) ∧
    (∀ files₂ : List (Option ArticleData), files.Perm files₂ →
      updateAccountStats count username files =
        updateAccountStats count username files₂) := by
  constructor
  · intro d
    show findAt d
      (aggregateByDate (((files.filterMap id).map (·.breakdown)).flatten)) = _
    rw [findAt_aggregateByDate, aggEntry_flatten]
  · intro files₂ hp
    have hv : (files.filterMap id).Perm (files₂.filterMap id) := hp.filterMap id
    simp only [updateAccountStats]
    congr 1
    · exact (hv.map (·.views)).sum_eq
    · exact (hv.map (·.comments)).sum_eq
    · exact (hv.map (·.reactions)).sum_eq
    · exact aggregateByDate_perm (hv.map (·.breakdown)).flatten

theorem aggregation_commutative_witness :
    ([some ⟨"t", 4, 1, 1, none, [⟨1, 4, 1, 1⟩]⟩, none] :
        List (Option ArticleData)).Perm
      [none, some ⟨"t", 4, 1, 1, none, [⟨1, 4, 1, 1⟩]⟩] ∧
    updateAccountStats 1 none [some ⟨"t", 4, 1, 1, none, [⟨1, 4, 1, 1⟩]⟩, none] =
      updateAccountStats 1 none [none, some ⟨"t", 4, 1, 1, none, [⟨1, 4, 1, 1⟩]⟩] :=
  ⟨by decide,
    (aggregation_commutative 1 none
        [some ⟨"t", 4, 1, 1, none, [⟨1, 4, 1, 1⟩]⟩, none]).2
      [none, some ⟨"t", 4, 1, 1, none, [⟨1, 4, 1, 1⟩]⟩] (by decide)⟩

/-! ### Ranking lemmas (C6) -/

theorem rankLe_imp {a b : RankEntry} (h : rankLe a b) :
    b.value ≤ a.value ∧ (a.value = b.value → a.slug ≤ b.slug) := by
  rcases h with h | ⟨he, hs⟩
  · exact ⟨le_of_lt h, fun heq => absurd (heq ▸ h) (lt_irrefl _)⟩
  · exact ⟨le_of_eq he.symm, fun _ => hs⟩

theorem insertionSort_rank_eq {l₁ l₂ : List RankEntry} (p : l₁.Perm l₂)
    (hnd : (l₁.map (·.slug)).Nodup) :
    List.insertionSort rankLe l₁ = List.insertionSort rankLe l₂ := by
  apply eq_of_perm_of_pairwise
    (((List.perm_insertionSort rankLe l₁).trans p).trans
      (List.perm_insertionSort rankLe l₂).symm)
    (List.sorted_insertionSort rankLe l₁) (List.sorted_insertionSort rankLe l₂)
  intro a ha b hb hab hba
  have ha' : a ∈ l₁ := (List.mem_insertionSort rankLe).mp ha
  have hb' : b ∈ l₁ := (List.mem_insertionSort rankLe).mp hb
  have hslug : a.slug = b.slug := by
    rcases hab with h1 | ⟨h1e, h1s⟩
    · rcases hba with h2 | ⟨h2e, h2s⟩
      · exact absurd (lt_trans h1 h2) (lt_irrefl _)
      · exact absurd (h2e ▸ h1) (lt_irrefl _)
    · rcases hba with h2 | ⟨h2e, h2s⟩
      · exact absurd (h1e ▸ h2) (lt_irrefl _)
      · exact le_antisymm h1s h2s
  exact List.inj_on_of_nodup_map hnd ha' hb' hslug

/-- C6 as stated is false on records sharing a slug: two records with
slug "a", equal metrics and different titles compare equal under the sort
key `(-metric, slug)`, so the stable sort preserves enumeration order and
the two enumeration orders give different ranking sequences. -/
theorem ranking_unstable_on_duplicate_slug :
    createTopArticles [⟨"a", "t1", 1, 1, none⟩, ⟨"a", "t2", 1, 1, none⟩] ≠
      createTopArticles [⟨"a", "t2", 1, 1, none⟩, ⟨"a", "t1", 1, 1, none⟩] := by
  intro h
  have hfst := congrArg Prod.fst h
  unfold createTopArticles at hfst
  simp only [List.map_cons, List.map_nil] at hfst
  have sAB : List.Sorted rankLe [projByReaction ⟨"a", "t1", 1, 1, none⟩,
      projByReaction ⟨"a", "t2", 1, 1, none⟩] :=
    List.pairwise_pair.mpr (Or.inr ⟨rfl, le_rfl⟩)
  have sBA : List.Sorted rankLe [projByReaction ⟨"a", "t2", 1, 1, none⟩,
      projByReaction ⟨"a", "t1", 1, 1, none⟩] :=
    List.pairwise_pair.mpr (Or.inr ⟨rfl, le_rfl⟩)
  rw [sAB.insertionSort_eq, sBA.insertionSort_eq] at hfst
  have hh : projByReaction ⟨"a", "t1", 1, 1, none⟩ =
      projByReaction ⟨"a", "t2", 1, 1, none⟩ := by
    injection hfst
  simp [projByReaction] at hh

/-- C6 (amended): Both ranking sequences are sorted descending by their
target metric with ties broken by lexicographically ascending slug, and —
provided no two article records share a slug — the output is identical
for any enumeration order of the input records. -/
theorem ranking_stable :
    (∀ stats : List ArticleStat,
      ((createTopArticles stats).1.Pairwise fun a b =>
        b.value ≤ a.value ∧ (a.value = b.value → a.slug ≤ b.slug)) ∧
      ((createTopArticles stats).2.Pairwise fun a b =>
        b.value ≤ a.value ∧ (a.value = b.value → a.slug ≤ b.slug))) ∧
    (∀ stats₁ stats₂ : List ArticleStat, stats₁.Perm stats₂ →
      (stats₁.map (·.slug)).Nodup →
      createTopArticles stats₁ = createTopArticles stats₂) := by
  constructor
  · intro stats
    exact ⟨(List.sorted_insertionSort rankLe _).imp (fun h => rankLe_imp h),
      (List.sorted_insertionSort rankLe _).imp (fun h => rankLe_imp h)⟩
  · intro s₁ s₂ hp hnd
    have hnd1 : ((s₁.map projByReaction).map (·.slug)).Nodup := by
      rw [List.map_map]; exact hnd
    have hnd2 : ((s₁.map projByViews).map (·.slug)).Nodup := by
      rw [List.map_map]; exact hnd
    unfold createTopArticles
    rw [insertionSort_rank_eq (hp.map projByReaction) hnd1,
      insertionSort_rank_eq (hp.map projByViews) hnd2]

theorem ranking_stable_witness :
    ([⟨"b", "t2", 3, 4, none⟩, ⟨"a", "t1", 3, 4, none⟩] :
        List ArticleStat).Perm [⟨"a", "t1", 3, 4, none⟩, ⟨"b", "t2", 3, 4, none⟩] ∧
    (([⟨"b", "t2", 3, 4, none⟩, ⟨"a", "t1", 3, 4, none⟩] :
        List ArticleStat).map (·.slug)).Nodup ∧
    createTopArticles [⟨"b", "t2", 3, 4, none⟩, ⟨"a", "t1", 3, 4, none⟩] =
      createTopArticles [⟨"a", "t1", 3, 4, none⟩, ⟨"b", "t2", 3, 4, none⟩] :=
  ⟨by decide, by decide,
    ranking_stable.2 [⟨"b", "t2", 3, 4, none⟩, ⟨"a", "t1", 3, 4, none⟩]
      [⟨"a", "t1", 3, 4, none⟩, ⟨"b", "t2", 3, 4, none⟩] (by decide) (by decide)⟩

/-! ### Error taxonomy (C9) -/

/-- C9: Missing or invalid credentials and an API-error or transport
failure while enumerating the published-article list are fatal
(`sys.exit(1)`, modelled as `.error ()`), and the only way the
enumeration fails is such a page-level error; whereas an analytics fetch
failure for a single article yields the empty mapping and the article is
still processed exactly as with no new data — the run continues. -/
theorem fatal_error_taxonomy :
    loadApiKey none = .error () ∧
    (∀ lines, extractApiKey lines = none → loadApiKey (some lines) = .error ()) ∧
    (∀ lines, extractApiKey lines = some "" → loadApiKey (some lines) = .error ()) ∧
    (∀ rest, fetchPublishedArticles (.transportError :: rest) = .error ()) ∧
    (∀ rest, fetchPublishedArticles (.apiError :: rest) = .error ()) ∧
    (∀ (a : Article) (as : List Article) (rest : List PageResp),
      (fetchPublishedArticles (.ok (a :: as) :: rest) = .error () ↔
        fetchPublishedArticles rest = .error ())) ∧
    fetchArticleAnalytics .failed = [] ∧
    (∀ (refresh : Bool) (today : Int) (art : Article) (existing : ExistingFile),
      processArticle refresh today art
          (fun _ _ => fetchArticleAnalytics .failed) existing =
        processArticle refresh today art (fun _ _ => []) existing) := by
  refine ⟨rfl, ?_, ?_, fun _ => rfl, fun _ => rfl, ?_, rfl, fun _ _ _ _ => rfl⟩
  · intro lines h
    simp [loadApiKey, h]
  · intro lines h
    simp [loadApiKey, h]
  · intro a as rest
    cases h : fetchPublishedArticles rest with
    | ok more => simp [fetchPublishedArticles, h]
    | error e => cases e; simp [fetchPublishedArticles, h]

theorem fatal_error_taxonomy_witness :
    extractApiKey ["FOO=1"] = none ∧
    loadApiKey (some ["FOO=1"]) = .error () ∧
    extractApiKey ["API_KEY="] = some "" ∧
    loadApiKey (some ["API_KEY="]) = .error () ∧
    fetchPublishedArticles [.transportError] = .error () ∧
    fetchPublishedArticles [.apiError] = .error () ∧
    (fetchPublishedArticles [.ok [⟨1, "s", 1, "t", none⟩], .apiError] = .error () ↔
      fetchPublishedArticles [.apiError] = .error ()) ∧
    processArticle false 2 ⟨1, "s", 1, "t", none⟩
        (fun _ _ => fetchArticleAnalytics .failed) .absent =
      processArticle false 2 ⟨1, "s", 1, "t", none⟩ (fun _ _ => []) .absent :=
  ⟨by decide, fatal_error_taxonomy.2.1 ["FOO=1"] (by decide), by decide,
    fatal_error_taxonomy.2.2.1 ["API_KEY="] (by decide),
    fatal_error_taxonomy.2.2.2.1 [], fatal_error_taxonomy.2.2.2.2.1 [],
    fatal_error_taxonomy.2.2.2.2.2.1 ⟨1, "s", 1, "t", none⟩ [] [.apiError],
    fatal_error_taxonomy.2.2.2.2.2.2.2 false 2 ⟨1, "s", 1, "t", none⟩ .absent⟩

end DevToStats
